import Mathlib

/-!
Verification of the sys-peek metrics core (src/sys-peek/src/main.rs).

Embedding conventions:
* Rust `u64` byte counts are embedded as `ℕ` (the claims quantify over
  non-negative counts; no wrapping arithmetic occurs in the modelled code).
* Rust `f64` values are embedded as `ℚ`.  Every float operation performed by
  `format_bytes` is division by `1024.0`, which is exact in binary floating
  point (it only decrements the exponent), and the `u64 -> f64` conversion is
  monotone and exact below `2^53`; the unit chosen and the comparisons with
  `1024.0` therefore agree with the exact rational computation on the inputs
  the claims are about.
* Rust strings are embedded as `List Char`; `report_power`'s byte indices all
  fall on character boundaries, so character indices model them faithfully.
* I/O results (`fs::read_to_string`, `Command::output`) are passed in as
  `Option` arguments: `none` models a failed read, `some s` a successful one.
-/

namespace SysPeek

/-- The unit ladder of `format_bytes`: `let units = ["B", "KB", "MB", "GB", "TB"]`. -/
def units : List String := ["B", "KB", "MB", "GB", "TB"]

/-- Round a rational to the nearest integer, ties to even: the rounding Rust's
float formatting applies to the exact decimal value when a precision is given. -/
def roundHalfEven (q : ℚ) : ℤ :=
  let f := ⌊q⌋
  let r := q - f
  if r < 1 / 2 then f
  else if 1 / 2 < r then f + 1
  else if f % 2 = 0 then f else f + 1

/-- Two-decimal rendering of a non-negative rational: models Rust's
`format ("{:.2}", f)` on the non-negative values `format_bytes` produces. -/
def fmtFixed2 (q : ℚ) : String :=
  let n := (roundHalfEven (q * 100)).toNat
  toString (n / 100) ++ "." ++
    (if n % 100 < 10 then "0" ++ toString (n % 100) else toString (n % 100))

/-- The scaling loop of `format_bytes`:
`while f_bytes >= 1024.0 && count < units.len() - 1 { f_bytes /= 1024.0; count += 1; }`.
`fuel` is the number of promotions still allowed, i.e. `units.len() - 1 - count`,
so the `count < units.len() - 1` conjunct of the guard is exactly `fuel ≠ 0`. -/
def scaleGo : ℕ → ℚ → ℕ → ℚ × ℕ
  | 0, f, count => (f, count)
  | fuel + 1, f, count =>
      if 1024 ≤ f then scaleGo fuel (f / 1024) (count + 1) else (f, count)

/-- Runs the scaling loop from `f_bytes = f`, `count = 0`; returns the final
`(f_bytes, count)` pair. -/
def scale (f : ℚ) : ℚ × ℕ := scaleGo (units.length - 1) f 0

/-- `fn format_bytes(bytes: u64) -> String`, from src/sys-peek/src/main.rs. -/
def format_bytes (bytes : ℕ) : String :=
  let p := scale (bytes : ℚ)
  fmtFixed2 p.1 ++ " " ++ units.getD p.2 ""

/-- Rust's `char::is_whitespace`: the Unicode White_Space code points. -/
def rustIsWhitespace (c : Char) : Bool :=
  let n := c.toNat
  decide ((9 ≤ n ∧ n ≤ 13) ∨ n = 32 ∨ n = 133 ∨ n = 160 ∨ n = 5760 ∨
    (8192 ≤ n ∧ n ≤ 8202) ∨ n = 8232 ∨ n = 8233 ∨ n = 8239 ∨ n = 8287 ∨ n = 12288)

/-- Rust's `str::trim`: drop leading and trailing whitespace characters. -/
def trimChars (l : List Char) : List Char :=
  ((l.dropWhile rustIsWhitespace).reverse.dropWhile rustIsWhitespace).reverse

/-- Rust's `str::contains(pat)` for a string pattern: some suffix of `s`
starts with `pat`. -/
def strContains (s pat : List Char) : Bool :=
  s.tails.any (fun t => pat.isPrefixOf t)

/-- Rust's `str::rfind(char::is_whitespace)`: index of the last whitespace
character of `l`, if any. -/
def rfindIdxWs (l : List Char) : Option ℕ :=
  match l.reverse.findIdx? rustIsWhitespace with
  | some j => some (l.length - 1 - j)
  | none => none

/-- The percentage extraction of `report_power` (macOS branch), given the text
`s` and the index `idx` of its first `%`:
`let start = s[..idx].rfind(|c: char| c.is_whitespace()).unwrap_or(0);`
`percentage = s[start..idx+1].trim().to_string();`. -/
def extractToken (s : List Char) (idx : ℕ) : List Char :=
  let start := (rfindIdxWs (s.take idx)).getD 0
  trimChars ((s.drop start).take (idx + 1 - start))

/-- The Linux branch of `fn report_power()`: the two sysfs reads are passed in
as arguments (`none` = the read failed).  Returns (source, percentage). -/
def report_power_linux (acOnline capacity : Option (List Char)) : String × String :=
  let source := match acOnline with
    | some s => if trimChars s = ['1'] then "AC" else "Battery"
    | none => "Unknown"
  let percentage := match capacity with
    | some cap => String.mk (trimChars cap) ++ "%"
    | none => "N/A"
  (source, percentage)

/-- The macOS branch of `fn report_power()`: the decoded stdout of
`pmset -g batt` is passed in as an argument (`none` = the command failed, in
which case `source`/`percentage` keep their initial values).
Returns (source, percentage). -/
def report_power_macos (output : Option (List Char)) : String × String :=
  match output with
  | none => ("Unknown", "N/A")
  | some s =>
    let source := if strContains s ("AC Power".data) then "AC" else "Battery"
    let percentage := match s.findIdx? (fun c => c == '%') with
      | some idx => String.mk (extractToken s idx)
      | none => "N/A"
    (source, percentage)

/-- A representative `pmset -g batt` output, as in the spec's example: it
contains `AC Power` and a first percentage token `95%`. -/
def pmsetSample : String :=
  "Now drawing from AC Power\n -InternalBattery-0 (id=123) 95%; charging; 0:45 remaining"

/-- Modelled from the spec: the snapshot record of §3 (`CpuCounterSnapshot`).
No CPU-snapshot code exists under src/ (the main loop delegates CPU usage to
the sysinfo library), so the calculator is modelled from §4.1 of the spec. -/
structure CpuCounterSnapshot where
  user : ℕ
  nice : ℕ
  system : ℕ
  idle : ℕ
  iowait : ℕ
  irq : ℕ
  softirq : ℕ

/-- Modelled from the spec: total time of a snapshot = sum of all seven
counters (§4.1). -/
def total (s : CpuCounterSnapshot) : ℕ :=
  s.user + s.nice + s.system + s.idle + s.iowait + s.irq + s.softirq

/-- Modelled from the spec: `calculate_usage(start, end)` of §4.1, with the
zero-delta guard returning exactly `0.0`. -/
def calculate_usage (s e : CpuCounterSnapshot) : ℚ :=
  let delta_total : ℤ := (total e : ℤ) - (total s : ℤ)
  let delta_idle : ℤ := ((e.idle : ℤ) + (e.iowait : ℤ)) - ((s.idle : ℤ) + (s.iowait : ℤ))
  if delta_total = 0 then 0
  else 100 * ((delta_total : ℚ) - (delta_idle : ℚ)) / (delta_total : ℚ)

end SysPeek

namespace SysPeek

/-- C1: format_bytes returns the golden strings on the spec's listed inputs;
in particular 1024 promotes to KB while 1023 stays in B. -/
theorem format_bytes_golden :
    format_bytes 0 = "0.00 B" ∧
    format_bytes 1023 = "1023.00 B" ∧
    format_bytes 1024 = "1.00 KB" ∧
    format_bytes (1024 * 1024) = "1.00 MB" ∧
    format_bytes (1024 * 1024 * 1024) = "1.00 GB" ∧
    format_bytes 1500 = "1.46 KB" := by
  refine ⟨?_, ?_, ?_, ?_, ?_, ?_⟩ <;>
    · norm_num [format_bytes, scale, scaleGo, units, fmtFixed2, roundHalfEven]
      rfl

theorem scale_eq (f : ℚ) : scale f = scaleGo 4 f 0 := rfl

theorem scaleGo_count_le (fuel : ℕ) :
    ∀ (f : ℚ) (c : ℕ), (scaleGo fuel f c).2 ≤ c + fuel := by
  induction fuel with
  | zero => intro f c; simp [scaleGo]
  | succ fuel ih =>
    intro f c
    simp only [scaleGo]
    split
    · exact le_trans (ih (f / 1024) (c + 1)) (by omega)
    · simp

theorem scaleGo_count_ge (fuel : ℕ) :
    ∀ (f : ℚ) (c : ℕ), c ≤ (scaleGo fuel f c).2 := by
  induction fuel with
  | zero => intro f c; simp [scaleGo]
  | succ fuel ih =>
    intro f c
    simp only [scaleGo]
    split
    · exact le_trans (by omega) (ih (f / 1024) (c + 1))
    · simp

theorem scaleGo_snd_eq_of_big (fuel : ℕ) :
    ∀ (f : ℚ) (c : ℕ), 1024 ≤ (scaleGo fuel f c).1 → (scaleGo fuel f c).2 = c + fuel := by
  induction fuel with
  | zero => intro f c _; simp [scaleGo]
  | succ fuel ih =>
    intro f c h
    simp only [scaleGo] at h ⊢
    split at h
    · rw [if_pos (by assumption)]
      rw [ih (f / 1024) (c + 1) h]
      omega
    · exact absurd h (by simpa using (by assumption : ¬ (1024 : ℚ) ≤ f))

theorem scaleGo_of_pow_le (fuel : ℕ) :
    ∀ (f : ℚ) (c : ℕ), (1024 : ℚ) ^ fuel ≤ f →
      scaleGo fuel f c = (f / 1024 ^ fuel, c + fuel) := by
  induction fuel with
  | zero => intro f c _; simp [scaleGo]
  | succ fuel ih =>
    intro f c h
    have h1 : (1024 : ℚ) ≤ f := by
      refine le_trans ?_ h
      calc (1024 : ℚ) = 1024 ^ 1 := (pow_one _).symm
        _ ≤ 1024 ^ (fuel + 1) := by
            exact pow_le_pow_right₀ (by norm_num) (by omega)
    have h2 : (1024 : ℚ) ^ fuel ≤ f / 1024 := by
      rw [le_div_iff₀ (by norm_num : (0 : ℚ) < 1024)]
      calc (1024 : ℚ) ^ fuel * 1024 = 1024 ^ (fuel + 1) := (pow_succ _ _).symm
        _ ≤ f := h
    simp only [scaleGo, if_pos h1]
    rw [ih (f / 1024) (c + 1) h2]
    refine Prod.ext ?_ (by omega)
    show f / 1024 / 1024 ^ fuel = f / 1024 ^ (fuel + 1)
    rw [div_div, pow_succ]
    ring_nf

theorem scaleGo_mono (fuel : ℕ) :
    ∀ (f1 f2 : ℚ) (c : ℕ), f1 ≤ f2 →
      (scaleGo fuel f1 c).2 < (scaleGo fuel f2 c).2 ∨
      ((scaleGo fuel f1 c).2 = (scaleGo fuel f2 c).2 ∧
        (scaleGo fuel f1 c).1 ≤ (scaleGo fuel f2 c).1) := by
  induction fuel with
  | zero => intro f1 f2 c h; right; exact ⟨rfl, h⟩
  | succ fuel ih =>
    intro f1 f2 c h
    by_cases h2 : (1024 : ℚ) ≤ f2
    · by_cases h1 : (1024 : ℚ) ≤ f1
      · simp only [scaleGo, if_pos h1, if_pos h2]
        exact ih (f1 / 1024) (f2 / 1024) (c + 1) (by gcongr)
      · left
        simp only [scaleGo, if_neg h1, if_pos h2]
        exact lt_of_lt_of_le (Nat.lt_succ_self c) (scaleGo_count_ge fuel (f2 / 1024) (c + 1))
    · have h1 : ¬ (1024 : ℚ) ≤ f1 := fun hc => h2 (le_trans hc h)
      right
      simp only [scaleGo, if_neg h1, if_neg h2]
      exact ⟨by simp, h⟩

theorem units_getD_mem (n : ℕ) (h : n ≤ 4) : units.getD n "" ∈ units := by
  interval_cases n <;> simp [units]

/-- C2: the unit label is always one of B, KB, MB, GB, TB; a byte count of at
least 1024^4 scales all the way to TB (value divided by exactly 1024^4, index
4 = TB); and the scaled value can be 1024 or more only when the unit is TB. -/
theorem format_bytes_unit_ladder (b : ℕ) :
    units.getD (scale (b : ℚ)).2 "" ∈ units ∧
    (1024 ^ 4 ≤ b → scale (b : ℚ) = ((b : ℚ) / 1024 ^ 4, 4)) ∧
    (1024 ≤ (scale (b : ℚ)).1 → units.getD (scale (b : ℚ)).2 "" = "TB") := by
  refine ⟨?_, ?_, ?_⟩
  · refine units_getD_mem _ ?_
    rw [scale_eq]
    simpa using scaleGo_count_le 4 (b : ℚ) 0
  · intro h
    have hq : (1024 : ℚ) ^ 4 ≤ (b : ℚ) := by
      have : ((1024 ^ 4 : ℕ) : ℚ) ≤ (b : ℚ) := Nat.cast_le.mpr h
      push_cast at this
      exact_mod_cast this
    rw [scale_eq]
    simpa using scaleGo_of_pow_le 4 (b : ℚ) 0 hq
  · intro h
    rw [scale_eq] at h ⊢
    rw [scaleGo_snd_eq_of_big 4 (b : ℚ) 0 h]
    rfl

theorem format_bytes_unit_ladder_witness :
    (1024 ^ 4 ≤ (1024 ^ 5 : ℕ) ∧
      scale (((1024 ^ 5 : ℕ) : ℚ)) = (((1024 ^ 5 : ℕ) : ℚ) / 1024 ^ 4, 4)) ∧
    (1024 ≤ (scale (((1024 ^ 5 : ℕ) : ℚ))).1 ∧
      units.getD (scale (((1024 ^ 5 : ℕ) : ℚ))).2 "" = "TB") := by
  have h4 : (1024 ^ 4 : ℕ) ≤ 1024 ^ 5 := by norm_num
  have he := (format_bytes_unit_ladder (1024 ^ 5)).2.1 h4
  have hv : (1024 : ℚ) ≤ (scale (((1024 ^ 5 : ℕ) : ℚ))).1 := by
    rw [he]
    push_cast
    norm_num
  exact ⟨⟨h4, he⟩, hv, (format_bytes_unit_ladder (1024 ^ 5)).2.2 hv⟩

/-- C3: format_bytes is monotone in the lexicographic order on
(unit index, scaled value): a larger byte count never produces a smaller pair. -/
theorem format_bytes_lex_mono (b1 b2 : ℕ) (h : b1 < b2) :
    (scale (b1 : ℚ)).2 < (scale (b2 : ℚ)).2 ∨
    ((scale (b1 : ℚ)).2 = (scale (b2 : ℚ)).2 ∧
      (scale (b1 : ℚ)).1 ≤ (scale (b2 : ℚ)).1) := by
  have hq : (b1 : ℚ) ≤ (b2 : ℚ) := by exact_mod_cast le_of_lt h
  rw [scale_eq, scale_eq]
  exact scaleGo_mono 4 (b1 : ℚ) (b2 : ℚ) 0 hq

theorem format_bytes_lex_mono_witness :
    (1500 : ℕ) < 2048 ∧
    ((scale ((1500 : ℕ) : ℚ)).2 < (scale ((2048 : ℕ) : ℚ)).2 ∨
      ((scale ((1500 : ℕ) : ℚ)).2 = (scale ((2048 : ℕ) : ℚ)).2 ∧
        (scale ((1500 : ℕ) : ℚ)).1 ≤ (scale ((2048 : ℕ) : ℚ)).1)) :=
  ⟨by norm_num, format_bytes_lex_mono 1500 2048 (by norm_num)⟩

/-- C9: format_bytes is total — its loop makes at most `units.len() - 1 = 4`
iterations.  The loop counter starts at 0 and increases by exactly one per
iteration, so the final counter is the number of iterations; it never exceeds
4, and the function always returns the formatted string. -/
theorem format_bytes_terminates (b : ℕ) :
    (scale (b : ℚ)).2 ≤ units.length - 1 ∧
    format_bytes b = fmtFixed2 (scale (b : ℚ)).1 ++ " " ++ units.getD (scale (b : ℚ)).2 "" :=
  ⟨by rw [scale_eq]; simpa using scaleGo_count_le 4 (b : ℚ) 0, rfl⟩

theorem strContains_iff (s pat : List Char) :
    strContains s pat = true ↔ pat <:+: s := by
  unfold strContains
  rw [List.any_eq_true]
  constructor
  · rintro ⟨t, ht, hp⟩
    rw [List.mem_tails] at ht
    rw [List.isPrefixOf_iff_prefix] at hp
    exact List.infix_iff_prefix_suffix.mpr ⟨t, hp, ht⟩
  · intro hi
    obtain ⟨t, hp, ht⟩ := List.infix_iff_prefix_suffix.mp hi
    exact ⟨t, (List.mem_tails _ _).mpr ht, List.isPrefixOf_iff_prefix.mpr hp⟩

theorem report_power_macos_fst (s : List Char) :
    (report_power_macos (some s)).1 =
      if "AC Power".data <:+: s then "AC" else "Battery" := by
  simp only [report_power_macos]
  by_cases hi : "AC Power".data <:+: s
  · rw [if_pos ((strContains_iff _ _).mpr hi), if_pos hi]
  · rw [if_neg (fun hc => hi ((strContains_iff _ _).mp hc)), if_neg hi]

/-- C5: under the free-text strategy the source is AC exactly when the text
contains the substring `AC Power` (Battery otherwise), and the spec's example
text (containing `AC Power` and ` 95%; charging`) yields source AC and
charge `95%`. -/
theorem report_power_macos_spec :
    (∀ s : List Char,
      ((report_power_macos (some s)).1 = "AC" ↔ "AC Power".data <:+: s) ∧
      ((report_power_macos (some s)).1 = "Battery" ↔ ¬ "AC Power".data <:+: s)) ∧
    report_power_macos (some pmsetSample.data) = ("AC", "95%") := by
  refine ⟨fun s => ⟨?_, ?_⟩, by rfl⟩
  · rw [report_power_macos_fst]
    by_cases hi : "AC Power".data <:+: s
    · simp [hi]
    · simp [hi]
  · rw [report_power_macos_fst]
    by_cases hi : "AC Power".data <:+: s
    · simp [hi]
    · simp [hi]

theorem dropWhile_getLast?_eq (p : Char → Bool) (l : List Char) (c : Char)
    (h : l.getLast? = some c) (hc : p c = false) :
    (l.dropWhile p).getLast? = some c := by
  induction l with
  | nil => simp at h
  | cons a t ih =>
    cases t with
    | nil =>
      simp only [List.getLast?_singleton, Option.some.injEq] at h
      subst h
      simp [List.dropWhile, hc]
    | cons b t2 =>
      rw [List.getLast?_cons_cons] at h
      rw [List.dropWhile_cons]
      split
      · exact ih h
      · rw [List.getLast?_cons_cons]
        exact h

theorem trimChars_getLast? (l : List Char) (c : Char)
    (h : l.getLast? = some c) (hc : rustIsWhitespace c = false) :
    trimChars l ≠ [] ∧ (trimChars l).getLast? = some c := by
  have h1 : (l.dropWhile rustIsWhitespace).getLast? = some c :=
    dropWhile_getLast?_eq _ _ _ h hc
  have h2 : (l.dropWhile rustIsWhitespace).reverse.head? = some c := by
    rw [List.head?_reverse]; exact h1
  obtain ⟨rest, hr⟩ : ∃ rest, (l.dropWhile rustIsWhitespace).reverse = c :: rest := by
    cases hm : (l.dropWhile rustIsWhitespace).reverse with
    | nil => rw [hm] at h2; simp at h2
    | cons x xs =>
      rw [hm] at h2
      simp only [List.head?_cons, Option.some.injEq] at h2
      exact ⟨xs, by rw [h2]⟩
  unfold trimChars
  rw [hr, List.dropWhile_cons, hc]
  constructor
  · simp
  · rw [List.getLast?_reverse]
    simp

theorem rfindIdxWs_lt (l : List Char) (k : ℕ) (h : rfindIdxWs l = some k) :
    k < l.length := by
  unfold rfindIdxWs at h
  cases hj : l.reverse.findIdx? rustIsWhitespace with
  | none => rw [hj] at h; simp at h
  | some j =>
    rw [hj] at h
    simp only [Option.some.injEq] at h
    rw [List.findIdx?_eq_some_iff_findIdx_eq] at hj
    have hjl : j < l.length := by simpa using hj.1
    omega

/-- C10: whenever the text has a `%`, the extracted charge token is non-empty
and ends in `%`; and when no whitespace precedes the first `%`, the token is
the whole prefix up to and including that `%`, trimmed. -/
theorem extractToken_spec (s : List Char) (idx : ℕ)
    (h : s.findIdx? (fun c => c == '%') = some idx) :
    extractToken s idx ≠ [] ∧
    (extractToken s idx).getLast? = some '%' ∧
    (rfindIdxWs (s.take idx) = none →
      extractToken s idx = trimChars (s.take (idx + 1))) := by
  obtain ⟨hl, hf⟩ := List.findIdx?_eq_some_iff_findIdx_eq.mp h
  have hb : (s[idx] == '%') = true := by
    subst hf
    exact List.findIdx_getElem (w := hl)
  have hpct : s[idx] = '%' := by simpa using hb
  simp only [extractToken]
  have hst : (rfindIdxWs (s.take idx)).getD 0 ≤ idx := by
    cases hr : rfindIdxWs (s.take idx) with
    | none => simp
    | some k =>
      have hk := rfindIdxWs_lt _ _ hr
      rw [List.length_take] at hk
      have : k < idx := lt_of_lt_of_le hk (min_le_left _ _)
      simpa using le_of_lt this
  set st := (rfindIdxWs (s.take idx)).getD 0 with hstdef
  have hlast0 : ((s.drop st).take (idx + 1 - st)).getLast? = some '%' := by
    rw [List.getLast?_eq_getElem?]
    rw [List.length_take, List.length_drop]
    have hmin : (idx + 1 - st) ⊓ (s.length - st) = idx + 1 - st :=
      min_eq_left (by omega)
    rw [hmin]
    have hsub : idx + 1 - st - 1 = idx - st := by omega
    rw [hsub]
    rw [List.getElem?_take]
    rw [if_pos (by omega)]
    rw [List.getElem?_drop]
    have hadd : st + (idx - st) = idx := by omega
    rw [hadd]
    rw [List.getElem?_eq_getElem hl, hpct]
  have hkeep := trimChars_getLast? _ _ hlast0 (by rfl)
  refine ⟨hkeep.1, hkeep.2, ?_⟩
  intro hnone
  have h0 : st = 0 := by rw [hstdef, hnone]; rfl
  rw [h0]
  rw [List.drop_zero, Nat.sub_zero]

theorem extractToken_spec_witness :
    ("87% left".data.findIdx? (fun c => c == '%') = some 2) ∧
    extractToken "87% left".data 2 ≠ [] ∧
    (extractToken "87% left".data 2).getLast? = some '%' ∧
    extractToken "87% left".data 2 = trimChars ("87% left".data.take (2 + 1)) := by
  have h : "87% left".data.findIdx? (fun c => c == '%') = some 2 := by rfl
  have hs := extractToken_spec "87% left".data 2 h
  exact ⟨h, hs.1, hs.2.1, hs.2.2 (by rfl)⟩

/-- C6: under the structured strategy, a readable AC indicator gives AC when
its trimmed content is `1` and Battery otherwise; an unreadable indicator
gives Unknown; a readable capacity gives the trimmed capacity followed by `%`,
an unreadable one gives `N/A`. -/
theorem report_power_linux_spec :
    (∀ ind cap, (report_power_linux (some ind) cap).1 =
      (if trimChars ind = ['1'] then "AC" else "Battery")) ∧
    (∀ cap, (report_power_linux none cap).1 = "Unknown") ∧
    (∀ acO c, (report_power_linux acO (some c)).2 = String.mk (trimChars c) ++ "%") ∧
    (∀ acO, (report_power_linux acO none).2 = "N/A") :=
  ⟨fun _ _ => rfl, fun _ => rfl, fun _ _ => rfl, fun _ => rfl⟩

theorem power_failure_counterexample :
    report_power_linux none (some "42".data) ≠ ("Unknown", "N/A") := by
  intro hcon
  have : (report_power_linux none (some "42".data)).2 = "N/A" := by rw [hcon]
  simp only [report_power_linux] at this
  revert this
  decide

theorem mk_append_pct_ne (l : List Char) : String.mk l ++ "%" ≠ "N/A" := by
  intro h
  have hd : l ++ ['%'] = ['N', '/', 'A'] := congrArg String.data h
  have h2 := congrArg List.getLast? hd
  rw [List.getLast?_concat] at h2
  revert h2
  decide

/-- C7 (amended): both strategies are total functions of their inputs — they
never raise — and a failed read degrades the affected field: an unreadable AC
indicator yields source Unknown, an unreadable capacity yields charge `N/A`,
an unreadable command output yields Unknown/`N/A`; when every read fails both
strategies return exactly (Unknown, `N/A`), and only then: a successful read
precludes the wholesale (Unknown, `N/A`) result. -/
theorem power_failure_degrades :
    (∀ cap, (report_power_linux none cap).1 = "Unknown") ∧
    (∀ acO, (report_power_linux acO none).2 = "N/A") ∧
    report_power_linux none none = ("Unknown", "N/A") ∧
    report_power_macos none = ("Unknown", "N/A") ∧
    (∀ acO cap, report_power_linux acO cap = ("Unknown", "N/A") →
      acO = none ∧ cap = none) ∧
    (∀ o, report_power_macos o = ("Unknown", "N/A") → o = none) := by
  refine ⟨fun _ => rfl, fun _ => rfl, rfl, rfl, ?_, ?_⟩
  · intro acO cap h
    constructor
    · cases acO with
      | none => rfl
      | some s =>
        have h1 := congrArg Prod.fst h
        simp only [report_power_linux] at h1
        split at h1 <;> exact absurd h1 (by decide)
    · cases cap with
      | none => rfl
      | some c =>
        have h2 := congrArg Prod.snd h
        simp only [report_power_linux] at h2
        exact absurd h2 (mk_append_pct_ne _)
  · intro o h
    cases o with
    | none => rfl
    | some s =>
      have h1 := congrArg Prod.fst h
      rw [report_power_macos_fst] at h1
      split at h1 <;> exact absurd h1 (by decide)

theorem power_failure_degrades_witness :
    (report_power_linux none none = ("Unknown", "N/A") ∧
      ((none : Option (List Char)) = none ∧ (none : Option (List Char)) = none)) ∧
    (report_power_macos none = ("Unknown", "N/A") ∧
      (none : Option (List Char)) = none) := by
  have h := power_failure_degrades
  exact ⟨⟨h.2.2.1, h.2.2.2.2.1 none none (by rfl)⟩,
    ⟨h.2.2.2.1, h.2.2.2.2.2 none (by rfl)⟩⟩

/-- C4: whenever the total-counter delta of the two snapshots is zero — in
particular on identical snapshots — calculate_usage returns exactly 0 instead
of dividing by zero. -/
theorem calculate_usage_zero_delta (s e : CpuCounterSnapshot)
    (h : (total e : ℤ) - (total s : ℤ) = 0) :
    calculate_usage s e = 0 ∧ calculate_usage s s = 0 := by
  constructor
  · simp only [calculate_usage]
    rw [if_pos h]
  · simp only [calculate_usage]
    rw [if_pos (sub_self _)]

theorem calculate_usage_zero_delta_witness :
    ((total ⟨100, 0, 100, 200, 0, 0, 0⟩ : ℤ) - (total ⟨50, 50, 100, 150, 50, 0, 0⟩ : ℤ) = 0) ∧
    calculate_usage ⟨50, 50, 100, 150, 50, 0, 0⟩ ⟨100, 0, 100, 200, 0, 0, 0⟩ = 0 ∧
    calculate_usage ⟨50, 50, 100, 150, 50, 0, 0⟩ ⟨50, 50, 100, 150, 50, 0, 0⟩ = 0 := by
  have h : (total ⟨100, 0, 100, 200, 0, 0, 0⟩ : ℤ) - (total ⟨50, 50, 100, 150, 50, 0, 0⟩ : ℤ) = 0 := by
    decide
  have hs := calculate_usage_zero_delta ⟨50, 50, 100, 150, 50, 0, 0⟩ ⟨100, 0, 100, 200, 0, 0, 0⟩ h
  exact ⟨h, hs.1, hs.2⟩

/-- C8: every core component is a deterministic function of its explicit
arguments: equal inputs give equal outputs. -/
theorem core_components_deterministic :
    (∀ b : ℕ, format_bytes b = format_bytes b) ∧
    (∀ s e : CpuCounterSnapshot, calculate_usage s e = calculate_usage s e) ∧
    (∀ acO cap, report_power_linux acO cap = report_power_linux acO cap) ∧
    (∀ o, report_power_macos o = report_power_macos o) :=
  ⟨fun _ => rfl, fun _ _ => rfl, fun _ _ => rfl, fun _ => rfl⟩

end SysPeek
